import Mathlib

/-!
# Verification of `pytest_split/plugin.py`

A shallow embedding of the pytest-split plugin: the duration dictionary
(Python `dict` keyed by test nodeid), the greedy heap-based scheduler
`split_tests`, the option validation `pytest_cmdline_main`, the duration
recorder `pytest_sessionfinish`, and the durations-file loading logic of
`Base.__init__`.  Durations (Python floats) are modelled as rationals.
-/

set_option maxHeartbeats 1000000

/-- Model of a Python `dict` from test nodeid to duration: an association
list whose keys are unique and kept in insertion order. -/
abbrev Durations := List (String × ℚ)

/-- Python `d.get(k)` / `d[k]`: value of the first entry with key `k`. -/
def dictGet (m : Durations) (k : String) : Option ℚ :=
  match m with
  | [] => none
  | (k', v) :: rest => if k = k' then some v else dictGet rest k

/-- Python `d[k] = v`: replace the value of an existing entry in place,
otherwise append the new entry at the end (insertion order). -/
def dictInsert (m : Durations) (k : String) (v : ℚ) : Durations :=
  match m with
  | [] => [(k, v)]
  | (k', v') :: rest => if k = k' then (k', v) :: rest else (k', v') :: dictInsert rest k v

/-- One step of a Python loop `d[p.1] = p.2` over a list of pairs. -/
def insertPair (m : Durations) (p : String × ℚ) : Durations :=
  dictInsert m p.1 p.2

/-- Model of the dict comprehension
`{test_name: duration for test_name, duration in pairs}` in `Base.__init__`
(legacy list-of-pairs migration): later pairs override earlier ones. -/
def pairsToDict (pairs : List (String × ℚ)) : Durations :=
  pairs.foldl insertPair []

/-- Modelled from the spec: "last-write-wins" lookup in a raw pair list —
the value of the *last* pair carrying the key, i.e. the first match when
scanning the reversed list.  Used to compare `pairsToDict` (from the
source's dict comprehension) against the spec's description. -/
def lastWinsLookup (pairs : List (String × ℚ)) (k : String) : Option ℚ :=
  dictGet pairs.reverse k

/-- Model of the plugin's
`test_group = namedtuple("test_group", "selected, deselected, duration")`.
`α` is the type of pytest items; the scheduler only reads an item's
`nodeid`. -/
structure test_group (α : Type) where
  selected : List α
  deselected : List α
  duration : ℚ
deriving DecidableEq, Repr

instance {α : Type} : Inhabited (test_group α) := ⟨⟨[], [], 0⟩⟩

/-- Strict-or-tie comparison on the heap entries `(summed_durations, group_index)`:
Python compares such tuples lexicographically. -/
def lexLe (p q : ℚ × ℕ) : Prop :=
  p.1 < q.1 ∨ (p.1 = q.1 ∧ p.2 ≤ q.2)

instance (p q : ℚ × ℕ) : Decidable (lexLe p q) := by
  unfold lexLe; infer_instance

/-- Model of `heapq.heappop` on a heap of `(summed_durations, group_index)`
pairs: removes and returns the smallest pair in the lexicographic order
(`heapq` documents exactly this extraction; the internal array layout is
irrelevant because the minimum here is unique — group indices are distinct). -/
def popMin : List (ℚ × ℕ) → Option ((ℚ × ℕ) × List (ℚ × ℕ))
  | [] => none
  | p :: rest =>
    match popMin rest with
    | none => some (p, [])
    | some (m, rest') => if lexLe p m then some (p, rest) else some (m, p :: rest')

/-- Model of `durations = {k: v for k, v in durations.items() if k in test_ids}`
in `split_tests`: restrict the cached durations to the collected test ids. -/
def restrictDurations (durations : Durations) (test_ids : List String) : Durations :=
  durations.filter (fun p => decide (p.1 ∈ test_ids))

/-- Model of `avg_duration_per_test` in `split_tests`: the mean of the restricted
durations when there are any, otherwise the arbitrary value `1`. -/
def avgDuration (restricted : Durations) : ℚ :=
  if restricted ≠ [] then ((restricted.map Prod.snd).sum) / (restricted.length : ℚ) else 1

/-- Model of `durations.get(item.nodeid, avg_duration_per_test)` in the loop
body of `split_tests`. -/
def effectiveDuration (restricted : Durations) (avg : ℚ) (id : String) : ℚ :=
  (dictGet restricted id).getD avg

/-- The mutable state of `split_tests`' loop: the `selected`, `deselected`
and `duration` arrays (as total functions on group indices; `split_tests`
only ever touches indices `< splits`) and the heap. -/
structure SState (α : Type) where
  selected : ℕ → List α
  deselected : ℕ → List α
  duration : ℕ → ℚ
  heap : List (ℚ × ℕ)

/-- One iteration of the `for item in items` loop of `split_tests`:
pop the `(summed_durations, group_idx)` pair with the smallest summed
duration (ties broken by group index), append the item to that group's
`selected` list and to every other group's `deselected` list, and push the
updated pair back. -/
def splitStep {α : Type} (restricted : Durations) (avg : ℚ) (splits : ℕ)
    (nodeid : α → String) (st : SState α) (item : α) : SState α :=
  match popMin st.heap with
  | none => st
  | some ((summed_durations, group_idx), restHeap) =>
    let item_duration := effectiveDuration restricted avg (nodeid item)
    let new_group_durations := summed_durations + item_duration
    { selected := fun i => if i = group_idx then st.selected i ++ [item] else st.selected i
      deselected := fun i =>
        if i < splits ∧ i ≠ group_idx then st.deselected i ++ [item] else st.deselected i
      duration := fun i => if i = group_idx then new_group_durations else st.duration i
      heap := (new_group_durations, group_idx) :: restHeap }

/-- The state of `split_tests` just before its loop: empty `selected` and
`deselected` lists, zero durations, and the heap `[(0, i) for i in range(splits)]`. -/
def initState (α : Type) (splits : ℕ) : SState α :=
  { selected := fun _ => []
    deselected := fun _ => []
    duration := fun _ => 0
    heap := (List.range splits).map (fun i => ((0 : ℚ), i)) }

/-- Model of `split_tests(splits, items, durations)` from `plugin.py`:
greedy streaming assignment of the items, in input order, to the group with
the currently smallest summed duration. -/
def split_tests {α : Type} (splits : ℕ) (items : List α) (nodeid : α → String)
    (durations : Durations) : List (test_group α) :=
  let test_ids := items.map nodeid
  let restricted := restrictDurations durations test_ids
  let avg_duration_per_test := avgDuration restricted
  let final := items.foldl (splitStep restricted avg_duration_per_test splits nodeid)
    (initState α splits)
  (List.range splits).map (fun i => ⟨final.selected i, final.deselected i, final.duration i⟩)

/-- Invariant of the scheduling loop: the heap is non-empty and every heap
entry carries a group index below `splits`. -/
def heapInv {α : Type} (splits : ℕ) (st : SState α) : Prop :=
  st.heap ≠ [] ∧ ∀ p ∈ st.heap, p.2 < splits

/-- The state of `split_tests` after its loop, as a function of the inputs. -/
def finalState {α : Type} (splits : ℕ) (items : List α) (nodeid : α → String)
    (durations : Durations) : SState α :=
  items.foldl
    (splitStep (restrictDurations durations (items.map nodeid))
      (avgDuration (restrictDurations durations (items.map nodeid))) splits nodeid)
    (initState α splits)

/-- A state with two groups tied at total 7, group 1 stored before group 0
in the heap list. -/
def tieDemoState : SState String :=
  { selected := fun _ => []
    deselected := fun _ => []
    duration := fun _ => 0
    heap := [(7, 1), (7, 0)] }

/-- Outcome of `pytest_cmdline_main`: normal return, a `pytest.UsageError`
with its message, or an uncaught `TypeError`. -/
inductive CmdResult
  | ok
  | usageError (msg : String)
  | typeError
deriving DecidableEq, Repr

/-- Python truthiness of an `Optional[int]` option value: `None` and `0`
are falsy. -/
def truthy (o : Option ℤ) : Bool :=
  match o with
  | none => false
  | some n => decide (n ≠ 0)

/-- Model of `pytest_cmdline_main(config)` from `plugin.py`, as a function
of the `--splits` and `--group` option values.  The guards `if splits and
group is None` and `if group and splits is None` use Python truthiness, so
a given-but-zero option does not trigger them; the comparison `splits < 1`
is then reached with `splits = None` when `--group 0` is passed without
`--splits`, and `None < 1` raises `TypeError` in Python 3, modelled as
`CmdResult.typeError`. -/
def pytest_cmdline_main (splits group : Option ℤ) : CmdResult :=
  if splits = none ∧ group = none then .ok
  else if truthy splits ∧ group = none then .usageError "argument --group is required"
  else if truthy group ∧ splits = none then .usageError "argument --splits is required"
  else
    match splits with
    | none => .typeError
    | some s =>
      if s < 1 then .usageError "argument --splits must be >= 1"
      else
        match group with
        | none => .typeError
        | some g =>
          if g < 1 ∨ s < g then .usageError "argument --group must be >= 1 and <= splits"
          else .ok

/-- The JSON value stored in a durations file, after parsing: either an
object mapping nodeids to durations, or the legacy list of pairs. -/
inductive JsonValue
  | jdict (entries : List (String × ℚ))
  | jlist (pairs : List (String × ℚ))
deriving DecidableEq, Repr

/-- Model of the durations-loading logic of `Base.__init__`.  The argument
describes the durations file: `none` when the file is missing (Python
raises `FileNotFoundError`, which is caught and yields `{}`), `some none`
when the file exists but `json.loads` fails (the `JSONDecodeError` is not
caught and propagates), and `some (some v)` when it parses to `v`; a parsed
list is converted to a dict with later duplicate pairs winning. -/
def loadCachedDurations (fileContents : Option (Option JsonValue)) : Except String Durations :=
  match fileContents with
  | none => Except.ok []
  | some none => Except.error "json.decoder.JSONDecodeError"
  | some (some (JsonValue.jdict m)) => Except.ok m
  | some (some (JsonValue.jlist pairs)) => Except.ok (pairsToDict pairs)

/-- Constant `STORE_DURATIONS_SETUP_AND_TEARDOWN_THRESHOLD = 60 * 10` from `plugin.py`. -/
def STORE_DURATIONS_SETUP_AND_TEARDOWN_THRESHOLD : ℚ := 60 * 10

/-- The fields of a pytest `TestReport` read by `pytest_sessionfinish`:
the item's nodeid, the phase tag `when` (`"setup"`, `"call"` or
`"teardown"`), and the measured duration. -/
structure TestReport where
  nodeid : String
  when : String
  duration : ℚ
deriving DecidableEq, Repr

/-- The two data-quality guards (`continue` statements) in
`pytest_sessionfinish`: a report is dropped when its duration is negative,
or when it is a setup/teardown report longer than the threshold. -/
def keepReport (r : TestReport) : Bool :=
  if r.duration < 0 then false
  else if (r.when = "teardown" ∨ r.when = "setup")
      ∧ r.duration > STORE_DURATIONS_SETUP_AND_TEARDOWN_THRESHOLD then false
  else true

/-- Model of `if nodeid not in test_durations: test_durations[nodeid] = 0` followed
by `test_durations[nodeid] += duration`. -/
def addReport (acc : Durations) (r : TestReport) : Durations :=
  let acc' := if dictGet acc r.nodeid = none then dictInsert acc r.nodeid 0 else acc
  dictInsert acc' r.nodeid ((dictGet acc' r.nodeid).getD 0 + r.duration)

/-- The body of the report loop in `pytest_sessionfinish`. -/
def recordStep (acc : Durations) (r : TestReport) : Durations :=
  if keepReport r then addReport acc r else acc

/-- The `test_durations` dict built by `pytest_sessionfinish` from the
run's phase reports (the flattened `terminal_reporter.stats` values that
are `TestReport`s). -/
def computeTestDurations (reports : List TestReport) : Durations :=
  reports.foldl recordStep []

/-- Model of `for k, v in test_durations.items(): self.cached_durations[k] = v`. -/
def mergeDurations (cached newDurations : Durations) : Durations :=
  newDurations.foldl insertPair cached

/-- Model of `PytestSplitCachePlugin.pytest_sessionfinish`: aggregate the
run's kept phase durations per nodeid and overwrite the cached mapping's
entries with the new totals (the JSON write-back preserves the mapping). -/
def pytest_sessionfinish (cached : Durations) (reports : List TestReport) : Durations :=
  mergeDurations cached (computeTestDurations reports)

/-- A report that survives the filters and belongs to nodeid `k`. -/
def keptFor (k : String) (r : TestReport) : Bool :=
  keepReport r && decide (r.nodeid = k)

/-- The run's total duration for nodeid `k`: the sum of the durations of
its kept phase reports. -/
def sumDurations (reports : List TestReport) (k : String) : ℚ :=
  ((reports.filter (keptFor k)).map TestReport.duration).sum

/-- The keys of a dict, in order. -/
def dictKeys (m : Durations) : List String :=
  m.map Prod.fst

theorem dictGet_dictInsert (m : Durations) (k k' : String) (v : ℚ) :
    dictGet (dictInsert m k v) k' = if k' = k then some v else dictGet m k' := by
  induction m with
  | nil => simp [dictInsert, dictGet]
  | cons p rest ih =>
    obtain ⟨pk, pv⟩ := p
    by_cases hk : k = pk
    · subst hk
      by_cases hk' : k' = k <;> simp [dictInsert, dictGet, hk']
    · by_cases hk' : k' = pk
      · subst hk'
        simp [dictInsert, dictGet, hk, Ne.symm hk, (by intro h; exact hk h.symm : ¬k' = k)]
      · simp [dictInsert, dictGet, hk, hk', ih]

theorem dictGet_append (m₁ m₂ : Durations) (k : String) :
    dictGet (m₁ ++ m₂) k = (dictGet m₁ k).or (dictGet m₂ k) := by
  induction m₁ with
  | nil => simp [dictGet]
  | cons p rest ih =>
    by_cases hk : k = p.1 <;> simp [dictGet, hk, ih]

theorem dictGet_foldl_insertPair (pairs : List (String × ℚ)) :
    ∀ (acc : Durations) (k : String),
      dictGet (pairs.foldl insertPair acc) k = (lastWinsLookup pairs k).or (dictGet acc k) := by
  induction pairs with
  | nil => intro acc k; simp [lastWinsLookup, dictGet]
  | cons p rest ih =>
    intro acc k
    have hrev : (p :: rest).reverse = rest.reverse ++ [p] := by simp
    have h2 : lastWinsLookup (p :: rest) k = (lastWinsLookup rest k).or (dictGet [p] k) := by
      rw [lastWinsLookup, hrev, dictGet_append]; rfl
    rw [List.foldl_cons, ih, h2]
    rw [show lastWinsLookup rest k = dictGet rest.reverse k from rfl]
    cases hkr : dictGet rest.reverse k with
    | some v => simp [Option.or]
    | none =>
      by_cases hk : k = p.1 <;>
        simp [Option.or, dictGet, hk, insertPair, dictGet_dictInsert]

theorem dictGet_pairsToDict (pairs : List (String × ℚ)) (k : String) :
    dictGet (pairsToDict pairs) k = lastWinsLookup pairs k := by
  rw [pairsToDict, dictGet_foldl_insertPair]
  cases lastWinsLookup pairs k <;> simp [Option.or, dictGet]

theorem lexLe_refl (p : ℚ × ℕ) : lexLe p p := Or.inr ⟨rfl, le_refl _⟩

theorem lexLe_trans {p q r : ℚ × ℕ} (h₁ : lexLe p q) (h₂ : lexLe q r) : lexLe p r := by
  rcases h₁ with h₁ | ⟨e₁, l₁⟩
  · rcases h₂ with h₂ | ⟨e₂, _⟩
    · exact Or.inl (lt_trans h₁ h₂)
    · exact Or.inl (e₂ ▸ h₁)
  · rcases h₂ with h₂ | ⟨e₂, l₂⟩
    · exact Or.inl (e₁ ▸ h₂)
    · exact Or.inr ⟨e₁.trans e₂, le_trans l₁ l₂⟩

theorem lexLe_total (p q : ℚ × ℕ) : lexLe p q ∨ lexLe q p := by
  rcases lt_trichotomy p.1 q.1 with h | h | h
  · exact Or.inl (Or.inl h)
  · rcases Nat.le_total p.2 q.2 with h2 | h2
    · exact Or.inl (Or.inr ⟨h, h2⟩)
    · exact Or.inr (Or.inr ⟨h.symm, h2⟩)
  · exact Or.inr (Or.inl h)

theorem popMin_eq_none {h : List (ℚ × ℕ)} : popMin h = none ↔ h = [] := by
  cases h with
  | nil => simp [popMin]
  | cons p rest =>
    simp only [popMin]
    cases hr : popMin rest with
    | none => simp
    | some pr =>
      obtain ⟨m, rest'⟩ := pr
      by_cases hle : lexLe p m <;> simp [hle]

theorem popMin_mem {h : List (ℚ × ℕ)} {m : ℚ × ℕ} {rest : List (ℚ × ℕ)}
    (hp : popMin h = some (m, rest)) : m ∈ h := by
  induction h generalizing m rest with
  | nil => simp [popMin] at hp
  | cons p t ih =>
    simp only [popMin] at hp
    cases hr : popMin t with
    | none => rw [hr] at hp; simp at hp; simp [hp.1]
    | some pr =>
      obtain ⟨m', rest'⟩ := pr
      rw [hr] at hp
      by_cases hle : lexLe p m'
      · simp [hle] at hp; simp [hp.1]
      · simp [hle] at hp
        exact List.mem_cons_of_mem _ (hp.1 ▸ ih hr)

theorem popMin_rest_subset {h : List (ℚ × ℕ)} {m : ℚ × ℕ} {rest : List (ℚ × ℕ)}
    (hp : popMin h = some (m, rest)) : ∀ x ∈ rest, x ∈ h := by
  induction h generalizing m rest with
  | nil => simp [popMin] at hp
  | cons p t ih =>
    simp only [popMin] at hp
    cases hr : popMin t with
    | none => rw [hr] at hp; simp at hp; simp [hp.2]
    | some pr =>
      obtain ⟨m', rest'⟩ := pr
      rw [hr] at hp
      by_cases hle : lexLe p m'
      · simp [hle] at hp
        intro x hx
        rw [← hp.2] at hx
        exact List.mem_cons_of_mem _ hx
      · simp [hle] at hp
        intro x hx
        rw [← hp.2] at hx
        rcases List.mem_cons.mp hx with hx | hx
        · exact hx ▸ List.mem_cons_self _ _
        · exact List.mem_cons_of_mem _ (ih hr x hx)

theorem popMin_isMin {h : List (ℚ × ℕ)} {m : ℚ × ℕ} {rest : List (ℚ × ℕ)}
    (hp : popMin h = some (m, rest)) : ∀ q ∈ h, lexLe m q := by
  induction h generalizing m rest with
  | nil => simp [popMin] at hp
  | cons p t ih =>
    simp only [popMin] at hp
    cases hr : popMin t with
    | none => 
      rw [hr] at hp; simp at hp
      have ht : t = [] := popMin_eq_none.mp hr
      subst ht
      intro q hq
      simp at hq
      exact hq ▸ hp.1 ▸ lexLe_refl p
    | some pr =>
      obtain ⟨m', rest'⟩ := pr
      rw [hr] at hp
      by_cases hle : lexLe p m'
      · simp [hle] at hp
        intro q hq
        rcases List.mem_cons.mp hq with hq | hq
        · exact hq ▸ hp.1 ▸ lexLe_refl p
        · exact hp.1 ▸ lexLe_trans hle (ih hr q hq)
      · simp [hle] at hp
        intro q hq
        rcases List.mem_cons.mp hq with hq | hq
        · subst hq
          rcases lexLe_total q m' with hh | hh
          · exact absurd hh hle
          · exact hp.1 ▸ hh
        · exact hp.1 ▸ ih hr q hq

theorem initState_heapInv {α : Type} {splits : ℕ} (h : 1 ≤ splits) :
    heapInv splits (initState α splits) := by
  constructor
  · simp only [initState, ne_eq, List.map_eq_nil_iff, List.range_eq_nil]
    omega
  · intro p hp
    simp only [initState, List.mem_map, List.mem_range] at hp
    obtain ⟨i, hi, rfl⟩ := hp
    exact hi

theorem splitStep_heapInv {α : Type} {restricted : Durations} {avg : ℚ} {splits : ℕ}
    {nodeid : α → String} {st : SState α} {item : α} (h : heapInv splits st) :
    heapInv splits (splitStep restricted avg splits nodeid st item) := by
  obtain ⟨hne, hmem⟩ := h
  rcases hpm : popMin st.heap with _ | ⟨⟨⟨t, g⟩, restHeap⟩⟩
  · exact absurd (popMin_eq_none.mp hpm) hne
  · constructor
    · simp [splitStep, hpm]
    · intro p hp
      simp only [splitStep, hpm] at hp
      rcases List.mem_cons.mp hp with hp | hp
      · subst hp
        exact hmem (t, g) (popMin_mem hpm)
      · exact hmem _ (popMin_rest_subset hpm _ hp)

theorem foldl_selected_count {α : Type} [DecidableEq α] (restricted : Durations) (avg : ℚ)
    (splits : ℕ) (nodeid : α → String) (a : α) :
    ∀ (items : List α) (st : SState α), heapInv splits st →
      (∑ i ∈ Finset.range splits,
        ((items.foldl (splitStep restricted avg splits nodeid) st).selected i).count a)
      = (∑ i ∈ Finset.range splits, (st.selected i).count a) + items.count a := by
  intro items
  induction items with
  | nil => intro st _; simp
  | cons it rest ih =>
    intro st hinv
    rw [List.foldl_cons, ih _ (splitStep_heapInv hinv)]
    obtain ⟨hne, hmem⟩ := hinv
    rcases hpm : popMin st.heap with _ | ⟨⟨⟨t, g⟩, restHeap⟩⟩
    · exact absurd (popMin_eq_none.mp hpm) hne
    have hg : g < splits := hmem (t, g) (popMin_mem hpm)
    have hsel : ∀ i ∈ Finset.range splits,
        ((splitStep restricted avg splits nodeid st it).selected i).count a
        = (st.selected i).count a + (if i = g then List.count a [it] else 0) := by
      intro i _
      by_cases hig : i = g <;> simp [splitStep, hpm, hig, List.count_append]
    rw [Finset.sum_congr rfl hsel, Finset.sum_add_distrib,
      Finset.sum_ite_eq' (Finset.range splits) g (fun _ => List.count a [it])]
    simp only [Finset.mem_range.mpr hg, if_true]
    simp [List.count_cons]
    omega

theorem foldl_sel_des_count {α : Type} [DecidableEq α] (restricted : Durations) (avg : ℚ)
    (splits : ℕ) (nodeid : α → String) (a : α) (ix : ℕ) (hix : ix < splits) :
    ∀ (items : List α) (st : SState α), heapInv splits st →
      ((items.foldl (splitStep restricted avg splits nodeid) st).selected ix).count a
        + ((items.foldl (splitStep restricted avg splits nodeid) st).deselected ix).count a
      = (st.selected ix).count a + (st.deselected ix).count a + items.count a := by
  intro items
  induction items with
  | nil => intro st _; simp
  | cons it rest ih =>
    intro st hinv
    rw [List.foldl_cons, ih _ (splitStep_heapInv hinv)]
    obtain ⟨hne, hmem⟩ := hinv
    rcases hpm : popMin st.heap with _ | ⟨⟨⟨t, g⟩, restHeap⟩⟩
    · exact absurd (popMin_eq_none.mp hpm) hne
    by_cases hig : ix = g
    · subst hig
      simp only [splitStep, hpm]
      simp [List.count_append, List.count_cons]
      omega
    · simp only [splitStep, hpm]
      simp [hig, hix, List.count_append, List.count_cons]
      omega

theorem foldl_selected_sublist {α : Type} (restricted : Durations) (avg : ℚ)
    (splits : ℕ) (nodeid : α → String) (ix : ℕ) :
    ∀ (items : List α) (st : SState α),
      ∃ t, (items.foldl (splitStep restricted avg splits nodeid) st).selected ix
            = st.selected ix ++ t ∧ t.Sublist items := by
  intro items
  induction items with
  | nil => intro st; exact ⟨[], by simp, List.nil_sublist _⟩
  | cons it rest ih =>
    intro st
    obtain ⟨t, ht, hsub⟩ := ih (splitStep restricted avg splits nodeid st it)
    rw [List.foldl_cons] at *
    rcases hpm : popMin st.heap with _ | ⟨⟨⟨t₀, g⟩, restHeap⟩⟩
    · refine ⟨t, ?_, hsub.cons it⟩
      rw [ht]
      simp [splitStep, hpm]
    · by_cases hig : ix = g
      · refine ⟨it :: t, ?_, hsub.cons₂ it⟩
        rw [ht]
        simp [splitStep, hpm, hig]
      · refine ⟨t, ?_, hsub.cons it⟩
        rw [ht]
        simp [splitStep, hpm, hig]

theorem foldl_deselected_sublist {α : Type} (restricted : Durations) (avg : ℚ)
    (splits : ℕ) (nodeid : α → String) (ix : ℕ) :
    ∀ (items : List α) (st : SState α),
      ∃ t, (items.foldl (splitStep restricted avg splits nodeid) st).deselected ix
            = st.deselected ix ++ t ∧ t.Sublist items := by
  intro items
  induction items with
  | nil => intro st; exact ⟨[], by simp, List.nil_sublist _⟩
  | cons it rest ih =>
    intro st
    obtain ⟨t, ht, hsub⟩ := ih (splitStep restricted avg splits nodeid st it)
    rw [List.foldl_cons] at *
    rcases hpm : popMin st.heap with _ | ⟨⟨⟨t₀, g⟩, restHeap⟩⟩
    · refine ⟨t, ?_, hsub.cons it⟩
      rw [ht]
      simp [splitStep, hpm]
    · by_cases hig : ix < splits ∧ ix ≠ g
      · refine ⟨it :: t, ?_, hsub.cons₂ it⟩
        rw [ht]
        simp [splitStep, hpm, hig]
      · refine ⟨t, ?_, hsub.cons it⟩
        rw [ht]
        simp [splitStep, hpm, hig]

theorem split_tests_eq {α : Type} (splits : ℕ) (items : List α) (nodeid : α → String)
    (durations : Durations) :
    split_tests splits items nodeid durations
      = (List.range splits).map (fun i =>
          ⟨(finalState splits items nodeid durations).selected i,
           (finalState splits items nodeid durations).deselected i,
           (finalState splits items nodeid durations).duration i⟩) := rfl

theorem sum_map_range (n : ℕ) (f : ℕ → ℕ) :
    ((List.range n).map f).sum = ∑ i ∈ Finset.range n, f i := by
  induction n with
  | zero => simp
  | succ n ih =>
    rw [List.range_succ, List.map_append, List.sum_append, Finset.sum_range_succ, ih]
    simp

theorem getD_map_range {β : Type} (f : ℕ → β) (d : β) :
    ∀ (n i : ℕ), i < n → ((List.range n).map f).getD i d = f i := by
  intro n
  induction n generalizing f with
  | zero => intro i h; omega
  | succ n ih =>
    intro i h
    rw [List.range_succ_eq_map]
    cases i with
    | zero => simp
    | succ i =>
      simp only [List.map_cons, List.map_map, List.getD_cons_succ]
      exact ih (f ∘ Nat.succ) i (by omega)

theorem split_tests_length {α : Type} (splits : ℕ) (items : List α) (nodeid : α → String)
    (durations : Durations) :
    (split_tests splits items nodeid durations).length = splits := by
  rw [split_tests_eq]
  simp

theorem split_tests_getD {α : Type} (splits : ℕ) (items : List α) (nodeid : α → String)
    (durations : Durations) (i : ℕ) (hi : i < splits) :
    (split_tests splits items nodeid durations).getD i default
      = ⟨(finalState splits items nodeid durations).selected i,
         (finalState splits items nodeid durations).deselected i,
         (finalState splits items nodeid durations).duration i⟩ := by
  rw [split_tests_eq]
  exact getD_map_range _ _ splits i hi

theorem finalState_count {α : Type} [DecidableEq α] (splits : ℕ) (items : List α)
    (nodeid : α → String) (durations : Durations) (a : α) (hsplits : 1 ≤ splits) :
    (∑ i ∈ Finset.range splits, ((finalState splits items nodeid durations).selected i).count a)
      = items.count a := by
  have h2 := foldl_selected_count (restrictDurations durations (items.map nodeid))
    (avgDuration (restrictDurations durations (items.map nodeid))) splits nodeid a items
    (initState α splits) (initState_heapInv hsplits)
  simpa [finalState, initState] using h2

theorem finalState_sel_des_count {α : Type} [DecidableEq α] (splits : ℕ) (items : List α)
    (nodeid : α → String) (durations : Durations) (a : α) (ix : ℕ) (hsplits : 1 ≤ splits)
    (hix : ix < splits) :
    ((finalState splits items nodeid durations).selected ix).count a
      + ((finalState splits items nodeid durations).deselected ix).count a
      = items.count a := by
  have h2 := foldl_sel_des_count (restrictDurations durations (items.map nodeid))
    (avgDuration (restrictDurations durations (items.map nodeid))) splits nodeid a ix hix items
    (initState α splits) (initState_heapInv hsplits)
  simpa [finalState, initState] using h2

theorem finalState_selected_sublist {α : Type} (splits : ℕ) (items : List α)
    (nodeid : α → String) (durations : Durations) (ix : ℕ) :
    ((finalState splits items nodeid durations).selected ix).Sublist items := by
  obtain ⟨t, ht, hsub⟩ := foldl_selected_sublist (restrictDurations durations (items.map nodeid))
    (avgDuration (restrictDurations durations (items.map nodeid))) splits nodeid ix items
    (initState α splits)
  have : (finalState splits items nodeid durations).selected ix = t := by
    rw [finalState, ht]
    simp [initState]
  rw [this]
  exact hsub

theorem finalState_deselected_sublist {α : Type} (splits : ℕ) (items : List α)
    (nodeid : α → String) (durations : Durations) (ix : ℕ) :
    ((finalState splits items nodeid durations).deselected ix).Sublist items := by
  obtain ⟨t, ht, hsub⟩ := foldl_deselected_sublist (restrictDurations durations (items.map nodeid))
    (avgDuration (restrictDurations durations (items.map nodeid))) splits nodeid ix items
    (initState α splits)
  have : (finalState splits items nodeid durations).deselected ix = t := by
    rw [finalState, ht]
    simp [initState]
  rw [this]
  exact hsub

theorem sublist_eq_of_mem_iff {α : Type} :
    ∀ {items l₁ l₂ : List α}, l₁.Sublist items → l₂.Sublist items → items.Nodup →
      (∀ a, a ∈ l₁ ↔ a ∈ l₂) → l₁ = l₂ := by
  intro items
  induction items with
  | nil =>
    intro l₁ l₂ h₁ h₂ _ _
    rw [List.sublist_nil.mp h₁, List.sublist_nil.mp h₂]
  | cons x rest ih =>
    intro l₁ l₂ h₁ h₂ hnd hmem
    obtain ⟨hx, hndr⟩ := List.nodup_cons.mp hnd
    cases h₁ with
    | cons _ h₁' =>
      cases h₂ with
      | cons _ h₂' => exact ih h₁' h₂' hndr hmem
      | cons₂ _ h₂' =>
        exact absurd (h₁'.subset ((hmem x).mpr (List.mem_cons_self _ _))) hx
    | cons₂ _ h₁' =>
      cases h₂ with
      | cons _ h₂' =>
        exact absurd (h₂'.subset ((hmem x).mp (List.mem_cons_self _ _))) hx
      | cons₂ _ h₂' =>
        congr 1
        refine ih h₁' h₂' hndr (fun a => ⟨fun ha => ?_, fun ha => ?_⟩)
        · rcases List.mem_cons.mp ((hmem a).mp (List.mem_cons_of_mem x ha)) with rfl | h
          · exact absurd (h₁'.subset ha) hx
          · exact h
        · rcases List.mem_cons.mp ((hmem a).mpr (List.mem_cons_of_mem x ha)) with rfl | h
          · exact absurd (h₂'.subset ha) hx
          · exact h

/-- C2: for every item sequence, every `splits ≥ 1` and every duration
mapping, `split_tests` returns exactly `splits` groups whose `selected`
sequences form a partition of the input: the groups' occurrence counts of
any item sum to its count in the input (no duplicates, no omissions), and
two distinct groups never share an item. -/
theorem split_tests_partition {α : Type} [DecidableEq α] (splits : ℕ) (items : List α)
    (nodeid : α → String) (durations : Durations) (a : α) (i j : ℕ)
    (hsplits : 1 ≤ splits) (hnd : items.Nodup) :
    (split_tests splits items nodeid durations).length = splits
    ∧ ((split_tests splits items nodeid durations).map
        (fun g => g.selected.count a)).sum = items.count a
    ∧ (i < splits → j < splits → i ≠ j →
        ¬(a ∈ ((split_tests splits items nodeid durations).getD i default).selected
          ∧ a ∈ ((split_tests splits items nodeid durations).getD j default).selected)) := by
  refine ⟨split_tests_length splits items nodeid durations, ?_, ?_⟩
  · rw [split_tests_eq, List.map_map, sum_map_range]
    simpa using finalState_count splits items nodeid durations a hsplits
  · intro hi hj hij haij
    obtain ⟨hai, haj⟩ := haij
    rw [split_tests_getD splits items nodeid durations i hi] at hai
    rw [split_tests_getD splits items nodeid durations j hj] at haj
    have hci : 0 < ((finalState splits items nodeid durations).selected i).count a :=
      List.count_pos_iff.mpr hai
    have hcj : 0 < ((finalState splits items nodeid durations).selected j).count a :=
      List.count_pos_iff.mpr haj
    have hsum := finalState_count splits items nodeid durations a hsplits
    have hle : items.count a ≤ 1 := List.nodup_iff_count_le_one.mp hnd a
    have hsubset : ({i, j} : Finset ℕ) ⊆ Finset.range splits := by
      intro x hx
      rcases Finset.mem_insert.mp hx with rfl | hx
      · exact Finset.mem_range.mpr hi
      · exact Finset.mem_range.mpr (Finset.mem_singleton.mp hx ▸ hj)
    have hpair : (∑ x ∈ ({i, j} : Finset ℕ),
        ((finalState splits items nodeid durations).selected x).count a)
        = ((finalState splits items nodeid durations).selected i).count a
          + ((finalState splits items nodeid durations).selected j).count a :=
      Finset.sum_pair hij
    have hmono := Finset.sum_le_sum_of_subset (f := fun x =>
      ((finalState splits items nodeid durations).selected x).count a) hsubset
    rw [hpair, hsum] at hmono
    omega

/-- C2 witness: instantiation at a concrete input. -/
theorem split_tests_partition_witness :
    (1 ≤ 2 ∧ List.Nodup ["a", "b", "c"])
    ∧ ((split_tests 2 ["a", "b", "c"] id []).length = 2
      ∧ ((split_tests 2 ["a", "b", "c"] id []).map
          (fun g => g.selected.count "a")).sum = ["a", "b", "c"].count "a"
      ∧ (0 < 2 → 1 < 2 → 0 ≠ 1 →
          ¬("a" ∈ ((split_tests 2 ["a", "b", "c"] id []).getD 0 default).selected
            ∧ "a" ∈ ((split_tests 2 ["a", "b", "c"] id []).getD 1 default).selected))) :=
  ⟨⟨by decide, by decide⟩,
    split_tests_partition 2 ["a", "b", "c"] id [] "a" 0 1 (by decide) (by decide)⟩

/-- C10: each group's `selected` sequence is a sublist of the input, i.e. it
preserves the input's relative order (and multiplicities). -/
theorem split_tests_selected_sublist {α : Type} (splits : ℕ) (items : List α)
    (nodeid : α → String) (durations : Durations) (i : ℕ) :
    (((split_tests splits items nodeid durations).getD i default).selected).Sublist items := by
  by_cases hi : i < splits
  · rw [split_tests_getD splits items nodeid durations i hi]
    exact finalState_selected_sublist splits items nodeid durations i
  · have hlen : (split_tests splits items nodeid durations).length ≤ i := by
      rw [split_tests_length]
      omega
    rw [List.getD_eq_default _ _ hlen]
    exact List.nil_sublist items

/-- C3: at any step of the scheduling pass, the popped heap entry `(t, g)`
has the minimum running total, ties broken by the lowest group index, and
the item is appended to that group's `selected` list. -/
theorem splitStep_tiebreak {α : Type} (restricted : Durations) (avg : ℚ) (splits : ℕ)
    (nodeid : α → String) (st : SState α) (item : α) (t : ℚ) (g : ℕ)
    (restHeap : List (ℚ × ℕ)) (hp : popMin st.heap = some ((t, g), restHeap)) :
    (splitStep restricted avg splits nodeid st item).selected g = st.selected g ++ [item]
    ∧ (∀ q ∈ st.heap, t ≤ q.1)
    ∧ (∀ q ∈ st.heap, q.1 = t → g ≤ q.2) := by
  refine ⟨by simp [splitStep, hp], ?_, ?_⟩
  · intro q hq
    rcases popMin_isMin hp q hq with h | ⟨h, _⟩
    · exact le_of_lt h
    · exact le_of_eq h
  · intro q hq hqt
    rcases popMin_isMin hp q hq with h | ⟨_, h⟩
    · rw [hqt] at h
      exact absurd h (lt_irrefl t)
    · exact h

/-- C3 witness: with both groups at total 7 the extraction picks group 0. -/
theorem splitStep_tiebreak_witness :
    popMin tieDemoState.heap = some ((7, 0), [(7, 1)])
    ∧ ((splitStep [] 1 2 id tieDemoState "e").selected 0 = tieDemoState.selected 0 ++ ["e"]
      ∧ (∀ q ∈ tieDemoState.heap, (7 : ℚ) ≤ q.1)
      ∧ (∀ q ∈ tieDemoState.heap, q.1 = 7 → 0 ≤ q.2)) :=
  ⟨by decide, splitStep_tiebreak [] 1 2 id tieDemoState "e" 7 0 [(7, 1)] (by decide)⟩

/-- C7: each group's `deselected` sequence is the input with that group's
own `selected` items removed, in the input's original relative order. -/
theorem split_tests_deselected_complement {α : Type} [DecidableEq α] (splits : ℕ)
    (items : List α) (nodeid : α → String) (durations : Durations) (i : ℕ)
    (hsplits : 1 ≤ splits) (hnd : items.Nodup) (hi : i < splits) :
    ((split_tests splits items nodeid durations).getD i default).deselected
      = items.filter (fun x =>
          decide (x ∉ ((split_tests splits items nodeid durations).getD i default).selected)) := by
  rw [split_tests_getD splits items nodeid durations i hi]
  apply sublist_eq_of_mem_iff (finalState_deselected_sublist splits items nodeid durations i)
    (List.filter_sublist items) hnd
  intro a
  have hc := finalState_sel_des_count splits items nodeid durations a i hsplits hi
  have hle : items.count a ≤ 1 := List.nodup_iff_count_le_one.mp hnd a
  constructor
  · intro ha
    have hdc : 0 < ((finalState splits items nodeid durations).deselected i).count a :=
      List.count_pos_iff.mpr ha
    have hsc : ((finalState splits items nodeid durations).selected i).count a = 0 := by omega
    have hic : 0 < items.count a := by omega
    rw [List.mem_filter]
    refine ⟨List.count_pos_iff.mp hic, ?_⟩
    simpa using List.count_eq_zero.mp hsc
  · intro ha
    rw [List.mem_filter] at ha
    obtain ⟨hai, hns⟩ := ha
    have hns' : a ∉ (finalState splits items nodeid durations).selected i := by
      simpa using hns
    have hsc : ((finalState splits items nodeid durations).selected i).count a = 0 :=
      List.count_eq_zero.mpr hns'
    have hic : 0 < items.count a := List.count_pos_iff.mpr hai
    have hdc : 0 < ((finalState splits items nodeid durations).deselected i).count a := by
      omega
    exact List.count_pos_iff.mp hdc

/-- C7 witness: instantiation at a concrete input. -/
theorem split_tests_deselected_complement_witness :
    (1 ≤ 2 ∧ List.Nodup ["a", "b", "c"] ∧ 0 < 2)
    ∧ ((split_tests 2 ["a", "b", "c"] id []).getD 0 default).deselected
      = ["a", "b", "c"].filter (fun x =>
          decide (x ∉ ((split_tests 2 ["a", "b", "c"] id []).getD 0 default).selected)) :=
  ⟨⟨by decide, by decide, by decide⟩,
    split_tests_deselected_complement 2 ["a", "b", "c"] id [] 0 (by decide) (by decide)
      (by decide)⟩

unseal Rat.add Rat.mul Rat.inv in
/-- C1 counterexample: on the spec's own example (items `a,b,c,d,e` with
durations `5,4,3,2,1` and two groups) the scheduler does *not* produce the
split `(a,d)` / `(b,c,e)` claimed by the spec: the selected sequences are
`(a,d,e)` and `(b,c)`, and no group selects exactly `(a,d)`. -/
theorem split_tests_example_counterexample :
    ((split_tests 2 ["a", "b", "c", "d", "e"] id
        [("a", 5), ("b", 4), ("c", 3), ("d", 2), ("e", 1)]).map test_group.selected
      = [["a", "d", "e"], ["b", "c"]])
    ∧ ¬ ∃ g ∈ split_tests 2 ["a", "b", "c", "d", "e"] id
        [("a", 5), ("b", 4), ("c", 3), ("d", 2), ("e", 1)], g.selected = ["a", "d"] := by
  decide

unseal Rat.add Rat.mul Rat.inv in
/-- C1 amended: the exact split the scheduler produces on the spec's
example: group 0 selects `(a,d,e)` with total `8`, group 1 selects `(b,c)`
with total `7` — the tie at total 7 before the last item is broken toward
the lower-indexed group, which therefore also receives `e`. -/
theorem split_tests_example_amended :
    split_tests 2 ["a", "b", "c", "d", "e"] id
      [("a", 5), ("b", 4), ("c", 3), ("d", 2), ("e", 1)]
    = [⟨["a", "d", "e"], ["b", "c"], 8⟩, ⟨["b", "c"], ["a", "d", "e"], 7⟩] := by
  decide

/-- C5: the validation misses one invalid combination — `--group 0` without
`--splits` passes both truthiness guards and reaches `splits < 1` with
`splits = None`, an unhandled `TypeError` instead of the descriptive usage
error the spec requires. -/
theorem pytest_cmdline_main_group0_typeError :
    pytest_cmdline_main none (some 0) = CmdResult.typeError := by decide

/-- C8: loading a legacy list-of-pairs durations file yields exactly the
mapping of the corresponding object file, with the later of two duplicate
pairs winning: every key maps to the last pair's value. -/
theorem loadCachedDurations_legacy_list (pairs : List (String × ℚ)) (k : String) :
    loadCachedDurations (some (some (JsonValue.jlist pairs))) = Except.ok (pairsToDict pairs)
    ∧ loadCachedDurations (some (some (JsonValue.jdict (pairsToDict pairs))))
        = Except.ok (pairsToDict pairs)
    ∧ dictGet (pairsToDict pairs) k = lastWinsLookup pairs k :=
  ⟨rfl, rfl, dictGet_pairsToDict pairs k⟩

/-- C9 counterexample: an existing durations file with valid empty contents
also loads as the empty mapping without failing, so "returns an empty
mapping exactly when the file does not exist" is false. -/
theorem loadCachedDurations_counterexample :
    loadCachedDurations (some (some (JsonValue.jdict []))) = Except.ok []
    ∧ some (some (JsonValue.jdict [])) ≠ (none : Option (Option JsonValue)) :=
  ⟨rfl, by decide⟩

/-- C9 amended: a missing durations file loads as the empty mapping (not an
error), and the load fails — propagating the parse error — exactly when the
file exists but its contents are not valid serialized data; an existing
file with valid contents also succeeds (possibly with an empty mapping). -/
theorem loadCachedDurations_spec (fc : Option (Option JsonValue)) :
    (fc = none → loadCachedDurations fc = Except.ok [])
    ∧ ((∃ e, loadCachedDurations fc = Except.error e) ↔ fc = some none) := by
  constructor
  · intro h
    subst h
    rfl
  · constructor
    · intro he
      obtain ⟨e, he⟩ := he
      match fc with
      | none => simp [loadCachedDurations] at he
      | some none => rfl
      | some (some (JsonValue.jdict m)) => simp [loadCachedDurations] at he
      | some (some (JsonValue.jlist pairs)) => simp [loadCachedDurations] at he
    · intro h
      subst h
      exact ⟨"json.decoder.JSONDecodeError", rfl⟩

/-- C9 witness: instantiation at the corrupt-file input. -/
theorem loadCachedDurations_spec_witness :
    ((some none : Option (Option JsonValue)) = none →
      loadCachedDurations (some none) = Except.ok [])
    ∧ ((∃ e, loadCachedDurations (some none) = Except.error e)
        ↔ (some none : Option (Option JsonValue)) = some none) :=
  loadCachedDurations_spec (some none)

theorem dictGet_restrictDurations (durations : Durations) (ids : List String) (k : String)
    (hk : k ∈ ids) :
    dictGet (restrictDurations durations ids) k = dictGet durations k := by
  induction durations with
  | nil => rfl
  | cons p rest ih =>
    rw [restrictDurations, List.filter_cons]
    by_cases hkp : k = p.1
    · have hmem : decide (p.1 ∈ ids) = true := by
        rw [← hkp]
        exact decide_eq_true hk
      rw [if_pos hmem]
      simp [dictGet, hkp]
    · by_cases hpm : p.1 ∈ ids
      · rw [if_pos (decide_eq_true hpm)]
        rw [show dictGet (p :: rest) k = dictGet rest k by simp [dictGet, hkp]]
        rw [show dictGet (p :: List.filter (fun q => decide (q.1 ∈ ids)) rest) k
            = dictGet (List.filter (fun q => decide (q.1 ∈ ids)) rest) k by
          simp [dictGet, hkp]]
        exact ih
      · rw [if_neg (by simpa using hpm)]
        rw [show dictGet (p :: rest) k = dictGet rest k by simp [dictGet, hkp]]
        exact ih

/-- C4: the effective duration `split_tests` uses for an input item with
nodeid `k` is the cached mapping's value when present; otherwise the mean
of the mapping restricted to the collected test ids when that restriction
is non-empty; otherwise the constant `1` (in particular when no mapping
entry overlaps the input). -/
theorem effectiveDuration_cases (durations : Durations) (ids : List String) (k : String)
    (v : ℚ) (hk : k ∈ ids) :
    (dictGet durations k = some v →
      effectiveDuration (restrictDurations durations ids)
        (avgDuration (restrictDurations durations ids)) k = v)
    ∧ (dictGet durations k = none → restrictDurations durations ids ≠ [] →
      effectiveDuration (restrictDurations durations ids)
          (avgDuration (restrictDurations durations ids)) k
        = ((restrictDurations durations ids).map Prod.snd).sum
            / ((restrictDurations durations ids).length : ℚ))
    ∧ ((∀ p ∈ durations, p.1 ∉ ids) →
      effectiveDuration (restrictDurations durations ids)
        (avgDuration (restrictDurations durations ids)) k = 1) := by
  refine ⟨?_, ?_, ?_⟩
  · intro hv
    rw [effectiveDuration, dictGet_restrictDurations durations ids k hk, hv]
    rfl
  · intro hnone hne
    rw [effectiveDuration, dictGet_restrictDurations durations ids k hk, hnone]
    simp [avgDuration, hne]
  · intro hnov
    have hempty : restrictDurations durations ids = [] := by
      rw [restrictDurations, List.filter_eq_nil_iff]
      intro p hp
      simpa using hnov p hp
    rw [hempty]
    simp [effectiveDuration, avgDuration, dictGet]

/-- C4 witness: instantiation at a concrete input. -/
theorem effectiveDuration_cases_witness :
    ("a" ∈ ["a", "b"])
    ∧ ((dictGet [("a", 2)] "a" = some 2 →
        effectiveDuration (restrictDurations [("a", 2)] ["a", "b"])
          (avgDuration (restrictDurations [("a", 2)] ["a", "b"])) "a" = 2)
      ∧ (dictGet [("a", 2)] "a" = none → restrictDurations [("a", 2)] ["a", "b"] ≠ [] →
        effectiveDuration (restrictDurations [("a", 2)] ["a", "b"])
            (avgDuration (restrictDurations [("a", 2)] ["a", "b"])) "a"
          = ((restrictDurations [("a", 2)] ["a", "b"]).map Prod.snd).sum
              / ((restrictDurations [("a", 2)] ["a", "b"]).length : ℚ))
      ∧ ((∀ p ∈ [(("a" : String), (2 : ℚ))], p.1 ∉ ["a", "b"]) →
        effectiveDuration (restrictDurations [("a", 2)] ["a", "b"])
          (avgDuration (restrictDurations [("a", 2)] ["a", "b"])) "a" = 1)) :=
  ⟨by decide, effectiveDuration_cases [("a", 2)] ["a", "b"] "a" 2 (by decide)⟩

theorem dictGet_addReport_self (acc : Durations) (r : TestReport) :
    dictGet (addReport acc r) r.nodeid
      = some ((dictGet acc r.nodeid).getD 0 + r.duration) := by
  cases hg : dictGet acc r.nodeid <;>
    simp [addReport, hg, dictGet_dictInsert]

theorem dictGet_addReport_other (acc : Durations) (r : TestReport) (k : String)
    (hk : k ≠ r.nodeid) :
    dictGet (addReport acc r) k = dictGet acc k := by
  cases hg : dictGet acc r.nodeid <;>
    simp [addReport, hg, dictGet_dictInsert, hk]

theorem dictGet_foldl_recordStep (k : String) :
    ∀ (reports : List TestReport) (acc : Durations),
      (∀ v, dictGet acc k = some v →
        dictGet (reports.foldl recordStep acc) k = some (v + sumDurations reports k))
      ∧ (dictGet acc k = none → reports.any (keptFor k) = true →
        dictGet (reports.foldl recordStep acc) k = some (sumDurations reports k))
      ∧ (dictGet acc k = none → reports.any (keptFor k) = false →
        dictGet (reports.foldl recordStep acc) k = none) := by
  intro reports
  induction reports with
  | nil =>
    intro acc
    refine ⟨fun v hv => ?_, fun hn ha => ?_, fun hn _ => ?_⟩
    · simpa [sumDurations] using hv
    · simp at ha
    · simpa using hn
  | cons r rest ih =>
    intro acc
    rw [List.foldl_cons]
    cases hkeep : keepReport r with
    | false =>
      have hstep : recordStep acc r = acc := by simp [recordStep, hkeep]
      have hkf : keptFor k r = false := by simp [keptFor, hkeep]
      have hsum : sumDurations (r :: rest) k = sumDurations rest k := by
        simp [sumDurations, List.filter_cons, hkf]
      have hany : (r :: rest).any (keptFor k) = rest.any (keptFor k) := by
        simp [List.any_cons, hkf]
      rw [hstep, hsum, hany]
      exact ih acc
    | true =>
      have hstep : recordStep acc r = addReport acc r := by simp [recordStep, hkeep]
      rw [hstep]
      by_cases hkn : r.nodeid = k
      · subst hkn
        have hkf : keptFor r.nodeid r = true := by simp [keptFor, hkeep]
        have hsum : sumDurations (r :: rest) r.nodeid
            = r.duration + sumDurations rest r.nodeid := by
          simp [sumDurations, List.filter_cons, hkf]
        have hany : (r :: rest).any (keptFor r.nodeid) = true := by
          simp [List.any_cons, hkf]
        refine ⟨fun v hv => ?_, fun hn _ => ?_, fun hn hfalse => ?_⟩
        · have hself := dictGet_addReport_self acc r
          rw [hv] at hself
          have := (ih (addReport acc r)).1 (v + r.duration) (by simpa using hself)
          rw [this, hsum]
          ring_nf
        · have hself := dictGet_addReport_self acc r
          rw [hn] at hself
          have := (ih (addReport acc r)).1 (0 + r.duration) (by simpa using hself)
          rw [this, hsum]
          ring_nf
        · rw [hany] at hfalse
          exact absurd hfalse (by simp)
      · have hk' : k ≠ r.nodeid := fun h => hkn h.symm
        have hother : dictGet (addReport acc r) k = dictGet acc k :=
          dictGet_addReport_other acc r k hk'
        have hkf : keptFor k r = false := by simp [keptFor, hkn]
        have hsum : sumDurations (r :: rest) k = sumDurations rest k := by
          simp [sumDurations, List.filter_cons, hkf]
        have hany : (r :: rest).any (keptFor k) = rest.any (keptFor k) := by
          simp [List.any_cons, hkf]
        rw [hsum, hany]
        refine ⟨fun v hv => ?_, fun hn ha => ?_, fun hn ha => ?_⟩
        · exact (ih (addReport acc r)).1 v (hother.trans hv)
        · exact (ih (addReport acc r)).2.1 (hother.trans hn) ha
        · exact (ih (addReport acc r)).2.2 (hother.trans hn) ha

theorem mem_dictKeys_dictInsert (m : Durations) (k a : String) (v : ℚ) :
    a ∈ dictKeys (dictInsert m k v) ↔ a ∈ dictKeys m ∨ a = k := by
  induction m with
  | nil => simp [dictInsert, dictKeys]
  | cons p rest ih =>
    obtain ⟨pk, pv⟩ := p
    by_cases hk : k = pk
    · subst hk
      simp [dictInsert, dictKeys]
      tauto
    · simp [dictInsert, dictKeys, hk] at ih ⊢
      tauto

theorem nodup_dictKeys_dictInsert (m : Durations) (k : String) (v : ℚ)
    (h : (dictKeys m).Nodup) : (dictKeys (dictInsert m k v)).Nodup := by
  induction m with
  | nil => simp [dictInsert, dictKeys]
  | cons p rest ih =>
    obtain ⟨pk, pv⟩ := p
    have h' : pk ∉ dictKeys rest ∧ (dictKeys rest).Nodup := by
      simpa [dictKeys] using h
    by_cases hk : k = pk
    · subst hk
      simpa [dictInsert, dictKeys] using h'
    · have hnotin : pk ∉ dictKeys (dictInsert rest k v) := by
        rw [mem_dictKeys_dictInsert]
        rintro (hmem | rfl)
        · exact h'.1 hmem
        · exact hk rfl
      have := ih h'.2
      simp [dictInsert, dictKeys, hk] at hnotin this ⊢
      exact ⟨hnotin, this⟩

theorem nodup_dictKeys_addReport (acc : Durations) (r : TestReport)
    (h : (dictKeys acc).Nodup) : (dictKeys (addReport acc r)).Nodup := by
  cases hg : dictGet acc r.nodeid with
  | none =>
    simp only [addReport, hg, if_pos rfl]
    exact nodup_dictKeys_dictInsert _ _ _ (nodup_dictKeys_dictInsert _ _ _ h)
  | some v =>
    simp only [addReport, hg]
    rw [if_neg (by simp)]
    exact nodup_dictKeys_dictInsert _ _ _ h

theorem nodup_dictKeys_computeTestDurations (reports : List TestReport) :
    (dictKeys (computeTestDurations reports)).Nodup := by
  have main : ∀ (rs : List TestReport) (acc : Durations), (dictKeys acc).Nodup →
      (dictKeys (rs.foldl recordStep acc)).Nodup := by
    intro rs
    induction rs with
    | nil => intro acc h; simpa using h
    | cons r rest ih =>
      intro acc h
      rw [List.foldl_cons]
      apply ih
      rw [recordStep]
      cases hkeep : keepReport r with
      | false => simpa using h
      | true =>
        simp only [if_pos rfl]
        exact nodup_dictKeys_addReport acc r h
  exact main reports [] (by simp [dictKeys])

theorem dictGet_eq_none_of_not_mem_keys (m : Durations) (k : String)
    (h : k ∉ dictKeys m) : dictGet m k = none := by
  induction m with
  | nil => rfl
  | cons p rest ih =>
    simp only [dictKeys, List.map_cons, List.mem_cons, not_or] at h
    rw [show dictGet (p :: rest) k = dictGet rest k by simp [dictGet, h.1]]
    exact ih h.2

theorem dictGet_reverse_of_nodupKeys (m : Durations) (k : String)
    (h : (dictKeys m).Nodup) : dictGet m.reverse k = dictGet m k := by
  induction m with
  | nil => rfl
  | cons p rest ih =>
    have h' : p.1 ∉ dictKeys rest ∧ (dictKeys rest).Nodup := by
      simpa [dictKeys] using h
    rw [List.reverse_cons, dictGet_append, ih h'.2]
    by_cases hk : k = p.1
    · subst hk
      rw [dictGet_eq_none_of_not_mem_keys rest _ h'.1]
      simp [Option.or, dictGet]
    · rw [show dictGet [p] k = none by simp [dictGet, hk]]
      rw [show dictGet (p :: rest) k = dictGet rest k by simp [dictGet, hk]]
      cases dictGet rest k <;> simp [Option.or]

theorem dictGet_mergeDurations (cached newDurations : Durations) (k : String) :
    dictGet (mergeDurations cached newDurations) k
      = (lastWinsLookup newDurations k).or (dictGet cached k) :=
  dictGet_foldl_insertPair newDurations cached k

unseal Rat.add Rat.mul Rat.inv in
/-- C6: after a recording run, every nodeid with at least one kept phase
report is stored with the sum of that run's kept phase durations —
replacing, not adding to, any previously cached value — where a report is
kept iff its duration is non-negative and, for setup/teardown phases, at
most 600 seconds.  In particular a report of duration `-0.01` is dropped, a
teardown report of `601` is dropped and a teardown report of `599` is kept. -/
theorem pytest_sessionfinish_stores_sums (reports : List TestReport) (cached : Durations)
    (k : String) (hk : reports.any (keptFor k) = true) :
    dictGet (pytest_sessionfinish cached reports) k = some (sumDurations reports k)
    ∧ keepReport ⟨k, "call", -(1 / 100)⟩ = false
    ∧ keepReport ⟨k, "teardown", 601⟩ = false
    ∧ keepReport ⟨k, "teardown", 599⟩ = true := by
  refine ⟨?_, ?_, ?_, ?_⟩
  · have hagg : dictGet (computeTestDurations reports) k = some (sumDurations reports k) :=
      (dictGet_foldl_recordStep k reports []).2.1 rfl hk
    rw [pytest_sessionfinish, dictGet_mergeDurations, lastWinsLookup,
      dictGet_reverse_of_nodupKeys _ _ (nodup_dictKeys_computeTestDurations reports), hagg]
    rfl
  · simp only [keepReport]
    rw [if_pos (by decide)]
  · simp only [keepReport, STORE_DURATIONS_SETUP_AND_TEARDOWN_THRESHOLD]
    rw [if_neg (by decide), if_pos (by decide)]
  · simp only [keepReport, STORE_DURATIONS_SETUP_AND_TEARDOWN_THRESHOLD]
    rw [if_neg (by decide), if_neg (by decide)]

unseal Rat.add Rat.mul Rat.inv in
/-- C6 witness: a run with a call report of 3s and a teardown report of
599s for the same nodeid, recorded over an empty cache. -/
theorem pytest_sessionfinish_stores_sums_witness :
    ([⟨"t", "call", 3⟩, (⟨"t", "teardown", 599⟩ : TestReport)].any (keptFor "t")) = true
    ∧ (dictGet (pytest_sessionfinish [] [⟨"t", "call", 3⟩, ⟨"t", "teardown", 599⟩]) "t"
        = some (sumDurations [⟨"t", "call", 3⟩, ⟨"t", "teardown", 599⟩] "t")
      ∧ keepReport ⟨"t", "call", -(1 / 100)⟩ = false
      ∧ keepReport ⟨"t", "teardown", 601⟩ = false
      ∧ keepReport ⟨"t", "teardown", 599⟩ = true) :=
  ⟨by decide,
    pytest_sessionfinish_stores_sums [⟨"t", "call", 3⟩, ⟨"t", "teardown", 599⟩] [] "t"
      (by decide)⟩
